import Mathlib

/-! Verification of the gold-price reconciliation engine.

Shallow embedding of the repository's scripts:
* `scripts/build_history.py` — the backfill reconciler (`build_history`,
  `fill_missing_rates`, the inline 7-day look-back resolver);
* `scripts/update_price.py` — the incremental upsert (`main`, lines 162-209,
  and the adapter `get_international_gold_price`).

Modelling conventions:
* Calendar dates (ISO `YYYY-MM-DD` strings in the source, compared
  lexicographically and shifted with `timedelta(days=i)`) are modelled as
  integer day numbers `Date := Int`; string order and day arithmetic on
  ISO dates agree with integer order and subtraction on day numbers.
* Python floats are modelled as exact rationals `ℚ`; `round(x, 2)` is
  modelled as rounding `x * 100` to the nearest integer (`round2`).  The
  concrete values appearing below are far from representation boundaries
  and from rounding ties, so the idealisation is faithful on them.
* A Python dict `date -> float` is modelled as an association list
  `Series := List (Date × ℚ)` with first-match lookup `sget` (dict keys are
  unique, so first-match lookup is dict lookup); adding a key prepends.
* Python truthiness of an optional float (`if not x:`) holds exactly when
  the value is absent (`None`) or equal to `0.0`; the guards below test
  `= 0` on the payload of an `Option ℚ` accordingly.
-/

namespace GoldData

/-- Calendar date as an integer day number (see the modelling notes). -/
abbrev Date := Int

/-- Sparse date-keyed series: the engine-facing shape of a Python dict
`date -> float` (local prices, international prices, exchange rates). -/
abbrev Series := List (Date × ℚ)

/-- Dict lookup `series.get(date)`: first matching key, `none` if absent. -/
def sget : Series → Date → Option ℚ
  | [], _ => none
  | (k, v) :: rest, d => if d = k then some v else sget rest d

/-- Conversion constant 31.1035 (grams per troy ounce) from the source. -/
def troyOunceGrams : ℚ := 311035 / 10000

/-- Rounding to two decimal places, modelling Python `round(x, 2)`. -/
def round2 (q : ℚ) : ℚ := ((round (q * 100) : ℤ) : ℚ) / 100

/-- One reconciled record, with the exact field names of `history.json`:
`date, koreanPrice, internationalPrice, internationalPriceKrw,
exchangeRate, premium`. -/
structure Entry where
  date : Date
  koreanPrice : ℚ
  internationalPrice : ℚ
  internationalPriceKrw : ℚ
  exchangeRate : ℚ
  premium : ℚ
deriving DecidableEq

/-- The persisted history document: `lastUpdated` marker plus the data
sequence. -/
structure History where
  lastUpdated : Date
  data : List Entry
deriving DecidableEq

/-- Scan offsets `range(1, 8)` of the look-back loops in `build_history`. -/
def offsets : List Int := [1, 2, 3, 4, 5, 6, 7]

/-- Look-back scan (`build_history.py` lines 116-120 and 123-127): for each
offset `i` in order, if key `d - i` is present return its value (whatever it
is) and stop; `none` when no key in the window is present. -/
def scanBack (s : Series) (d : Date) : List Int → Option ℚ
  | [] => none
  | i :: rest =>
    match sget s (d - i) with
    | some v => some v
    | none => scanBack s d rest

/-- The gap-filling resolver as inlined in `build_history`: take the value
at the target date; if it is absent or `0.0` (falsy), fall back to the
7-day look-back scan. -/
def resolveValue (s : Series) (d : Date) : Option ℚ :=
  match sget s d with
  | some v => if v = 0 then scanBack s d offsets else some v
  | none => scanBack s d offsets

/-- One step of `fill_missing_rates`: remember the last rate seen at a key
that is present; at an absent key, insert the carried rate provided it is
truthy (nonzero). State is (rates dict, `last_rate`). -/
def fillStep (st : Series × Option ℚ) (d : Date) : Series × Option ℚ :=
  match sget st.1 d with
  | some v => (st.1, some v)
  | none =>
    match st.2 with
    | some l => if l = 0 then st else ((d, l) :: st.1, st.2)
    | none => st

/-- Ascending sort of a list of dates (Python `sorted`). -/
def sortInts (l : List Int) : List Int := List.insertionSort (· ≤ ·) l

/-- `fill_missing_rates(rates, dates)` (`build_history.py` lines 92-100):
walk the dates in ascending order carrying the last known rate forward into
every date that lacks one, with no look-back limit. -/
def fill_missing_rates (rates : Series) (dates : List Date) : Series :=
  ((sortInts dates).foldl fillStep (rates, none)).1

/-- `sorted(all_dates)` where `all_dates = set(korean_prices.keys())`. -/
def sortedDates (kp : Series) : List Date :=
  sortInts (kp.map Prod.fst).dedup

/-- The derivation applied to aligned values (`build_history.py` lines
133-143): convert the international price to local currency per gram and
compute the premium on unrounded intermediates; every stored field is
rounded to two decimals. -/
def mkRecord (d : Date) (kv iv ev : ℚ) : Entry :=
  let krw := (iv / troyOunceGrams) * ev
  let prem := ((kv - krw) / krw) * 100
  { date := d
    koreanPrice := round2 kv
    internationalPrice := round2 iv
    internationalPriceKrw := round2 krw
    exchangeRate := round2 ev
    premium := round2 prem }

/-- The per-date body of the backfill loop (`build_history.py` lines
110-143): look up the local price at the date, resolve the international
price and the (pre-filled) exchange rate, and skip unless all three are
present and nonzero. -/
def emitAt (kp ip erf : Series) (d : Date) : Option Entry :=
  match sget kp d, resolveValue ip d, resolveValue erf d with
  | some kv, some iv, some ev =>
    if kv = 0 ∨ iv = 0 ∨ ev = 0 then none else some (mkRecord d kv iv ev)
  | _, _, _ => none

/-- `build_history(korean_prices, intl_prices, exchange_rates)`: fill the
exchange-rate series forward over the anchor dates, then emit one record
per surviving anchor date in ascending date order. -/
def build_history (korean_prices intl_prices exchange_rates : Series) :
    List Entry :=
  let dates := sortedDates korean_prices
  let erf := fill_missing_rates exchange_rates dates
  dates.filterMap (emitAt korean_prices intl_prices erf)

/-- The fresh record built by `update_price.py` `main` (lines 166-185): if
the Korean price is `None` or `0`, substitute the estimate
`(intl / 31.1035) * rate * 1.03`; the premium guard emits `0` when the
converted price is not positive. -/
def updateEntry (target : Date) (korean : Option ℚ) (iv ev : ℚ) : Entry :=
  let kv :=
    match korean with
    | none => (iv / troyOunceGrams) * ev * (103 / 100)
    | some k => if k = 0 then (iv / troyOunceGrams) * ev * (103 / 100) else k
  let krw := (iv / troyOunceGrams) * ev
  let prem := if 0 < krw then ((kv - krw) / krw) * 100 else 0
  { date := target
    koreanPrice := round2 kv
    internationalPrice := round2 iv
    internationalPriceKrw := round2 krw
    exchangeRate := round2 ev
    premium := round2 prem }

/-- Replace the first record with the same date, else append at the end
(`update_price.py` lines 193-199). -/
def upsertData : List Entry → Entry → List Entry
  | [], e => [e]
  | d :: rest, e =>
    if d.date = e.date then e :: rest else d :: upsertData rest e

/-- Key order used by `history["data"].sort(key=lambda x: x["date"])`. -/
def dle (a b : Entry) : Prop := a.date ≤ b.date

/-- Strict date order between records: the sorted-unique invariant relates
adjacent records by `dlt`. -/
def dlt (a b : Entry) : Prop := a.date < b.date

instance : DecidableRel dle := fun a b => inferInstanceAs (Decidable (a.date ≤ b.date))

instance : DecidableRel dlt := fun a b => inferInstanceAs (Decidable (a.date < b.date))

instance : IsTotal Entry dle := ⟨fun a b => le_total a.date b.date⟩

instance : IsTrans Entry dle := ⟨fun _ _ _ h1 h2 => le_trans h1 h2⟩

instance : IsTrans Entry dlt := ⟨fun _ _ _ h1 h2 => lt_trans h1 h2⟩

/-- The re-sort after insertion (`update_price.py` line 202); a stable sort
by the date key, modelled by insertion sort. -/
def sortData (l : List Entry) : List Entry := List.insertionSort dle l

/-- The upsert of one record into the persisted history: replace-or-append,
re-sort by date, and set `lastUpdated` to the record's date
(`update_price.py` lines 193-205). -/
def doUpsert (h : History) (e : Entry) : History :=
  { lastUpdated := e.date, data := sortData (upsertData h.data e) }

/-- `update_price.py` `main` from the validity check on (lines 162-208),
as a function of the fetched inputs and the previously persisted history.
`none` models the early `return`: nothing is upserted and the history file
is not rewritten. -/
def updateMain (target : Date) (korean intl rate : Option ℚ) (h : History) :
    Option History :=
  match intl, rate with
  | some iv, some ev => some (doUpsert h (updateEntry target korean iv ev))
  | _, _ => none

/-- `get_international_gold_price` (`update_price.py` lines 13-22): `none`
when the request fails; on success `data.get("price", 0)`, i.e. the price
field of the JSON body with a silent default of `0` when the field is
absent.  The argument is `none` for a failed request and `some field` for a
response whose optional price field is `field`. -/
def get_international_gold_price (resp : Option (Option ℚ)) : Option ℚ :=
  match resp with
  | none => none
  | some priceField => some (priceField.getD 0)

/-- Boolean test used to locate the first record carrying a given date
(the generator expression of `update_price.py` line 193). -/
def sameDate (k : Date) (x : Entry) : Bool := x.date == k

/-- Helper: a successful lookup exhibits a pair of the series. -/
theorem sget_mem {s : Series} {d : Date} {v : ℚ} (h : sget s d = some v) :
    (d, v) ∈ s := by
  induction s with
  | nil => simp [sget] at h
  | cons p rest ih =>
    obtain ⟨k, w⟩ := p
    by_cases hdk : d = k
    · subst hdk
      simp [sget] at h
      subst h
      exact List.mem_cons_self _ _
    · simp [sget, hdk] at h
      exact List.mem_cons_of_mem _ (ih h)

/-- Helper: pairwise conjunction of two pairwise relations. -/
theorem pairwiseAnd {α : Type} {R S : α → α → Prop} :
    ∀ {l : List α}, l.Pairwise R → l.Pairwise S →
      l.Pairwise (fun a b => R a b ∧ S a b)
  | [], _, _ => List.Pairwise.nil
  | _ :: _, List.Pairwise.cons hR hRl, List.Pairwise.cons hS hSl =>
    List.Pairwise.cons (fun b hb => ⟨hR b hb, hS b hb⟩) (pairwiseAnd hRl hSl)

/-- Helper: the anchor iteration list is strictly increasing. -/
theorem sortedDates_pairwise_lt (kp : Series) :
    (sortedDates kp).Pairwise (· < ·) := by
  have hs : List.Sorted (· ≤ ·) (sortedDates kp) :=
    List.sorted_insertionSort _ _
  have hperm : List.Perm (sortedDates kp) (kp.map Prod.fst).dedup :=
    List.perm_insertionSort _ _
  have hnd : (sortedDates kp).Nodup :=
    hperm.nodup_iff.mpr (List.nodup_dedup _)
  exact (pairwiseAnd hs hnd).imp fun hab => lt_of_le_of_ne hab.1 hab.2

/-- Helper: a record emitted for an anchor date carries that date. -/
theorem emitAt_date {kp ip erf : Series} {d : Date} {e : Entry}
    (h : emitAt kp ip erf d = some e) : e.date = d := by
  unfold emitAt at h
  cases hk : sget kp d <;> rw [hk] at h
  · cases resolveValue ip d <;> cases resolveValue erf d <;> simp at h
  · cases hi : resolveValue ip d <;> rw [hi] at h
    · cases resolveValue erf d <;> simp at h
    · cases he : resolveValue erf d <;> rw [he] at h
      · simp at h
      · dsimp only at h
        split_ifs at h
        simp only [Option.some.injEq] at h
        subst h
        rfl

/-- Helper: mapping a date-preserving partial emission over a strictly
increasing date list yields a strictly increasing record list. -/
theorem filterMap_pairwise_dlt (f : Date → Option Entry)
    (hf : ∀ d e, f d = some e → e.date = d) :
    ∀ {l : List Date}, l.Pairwise (· < ·) → (l.filterMap f).Pairwise dlt := by
  intro l
  induction l with
  | nil => intro _; simp
  | cons a l ih =>
    intro hp
    rw [List.pairwise_cons] at hp
    rw [List.filterMap_cons]
    cases hfa : f a with
    | none => exact ih hp.2
    | some e =>
      refine List.Pairwise.cons ?_ (ih hp.2)
      intro e' he'
      obtain ⟨d', hd', hfd'⟩ := List.mem_filterMap.1 he'
      have h1 : e.date = a := hf a e hfa
      have h2 : e'.date = d' := hf d' e' hfd'
      unfold dlt
      rw [h1, h2]
      exact hp.1 d' hd'

/-- Helper: the backfill output is strictly increasing by date. -/
theorem build_history_pairwise (kp ip er : Series) :
    (build_history kp ip er).Pairwise dlt :=
  filterMap_pairwise_dlt _ (fun _ _ h => emitAt_date h)
    (sortedDates_pairwise_lt kp)

/-- Helper: dates occurring after an upsert occurred before or are the new
record's date. -/
theorem mem_mapDate_upsertData {e : Entry} {x : Date} :
    ∀ {l : List Entry}, x ∈ (upsertData l e).map Entry.date →
      x ∈ l.map Entry.date ∨ x = e.date := by
  intro l
  induction l with
  | nil =>
    intro h
    simp [upsertData] at h
    exact Or.inr h
  | cons d rest ih =>
    intro h
    by_cases hde : d.date = e.date
    · rw [upsertData, if_pos hde] at h
      simp only [List.map_cons, List.mem_cons] at h ⊢
      rcases h with h | h
      · exact Or.inr h
      · exact Or.inl (Or.inr h)
    · rw [upsertData, if_neg hde] at h
      simp only [List.map_cons, List.mem_cons] at h ⊢
      rcases h with h | h
      · exact Or.inl (Or.inl h)
      · rcases ih h with h' | h'
        · exact Or.inl (Or.inr h')
        · exact Or.inr h'

/-- Helper: replace-or-append keeps record dates duplicate-free. -/
theorem nodup_mapDate_upsertData {e : Entry} :
    ∀ {l : List Entry}, (l.map Entry.date).Nodup →
      ((upsertData l e).map Entry.date).Nodup := by
  intro l
  induction l with
  | nil =>
    intro _
    simp [upsertData]
  | cons d rest ih =>
    intro h
    simp only [List.map_cons, List.nodup_cons] at h
    by_cases hde : d.date = e.date
    · rw [upsertData, if_pos hde]
      simp only [List.map_cons, List.nodup_cons]
      exact ⟨hde ▸ h.1, h.2⟩
    · rw [upsertData, if_neg hde]
      simp only [List.map_cons, List.nodup_cons]
      refine ⟨?_, ih h.2⟩
      intro hmem
      rcases mem_mapDate_upsertData hmem with h' | h'
      · exact h.1 h'
      · exact hde h'

/-- Helper: stability of `orderedInsert` for date search — the inserted
record is placed before every record of the same date, and records of
other dates keep their first occurrence. -/
theorem find?_orderedInsert (k : Date) (a : Entry) :
    ∀ m : List Entry,
      (List.orderedInsert dle a m).find? (sameDate k) =
        if a.date = k then some a else m.find? (sameDate k)
  | [] => by
    by_cases hak : a.date = k
    · simp [List.orderedInsert, sameDate, hak]
    · simp [List.orderedInsert, sameDate, hak]
  | b :: m' => by
    by_cases hab : dle a b
    · rw [List.orderedInsert, if_pos hab]
      by_cases hak : a.date = k
      · rw [if_pos hak, List.find?_cons_of_pos]
        simp [sameDate, hak]
      · rw [if_neg hak, List.find?_cons_of_neg]
        simp [sameDate, hak]
    · rw [List.orderedInsert, if_neg hab]
      have hblt : b.date < a.date := lt_of_not_le hab
      by_cases hbk : b.date = k
      · have hak : ¬ a.date = k := by
          intro h
          rw [h, ← hbk] at hblt
          exact lt_irrefl _ hblt
        rw [if_neg hak, List.find?_cons_of_pos, List.find?_cons_of_pos]
        · simp [sameDate, hbk]
        · simp [sameDate, hbk]
      · rw [List.find?_cons_of_neg, List.find?_cons_of_neg,
          find?_orderedInsert k a m']
        · simp [sameDate, hbk]
        · simp [sameDate, hbk]

/-- Helper: the stable sort preserves the first record of a given date. -/
theorem find?_sortData (k : Date) :
    ∀ l : List Entry, (sortData l).find? (sameDate k) = l.find? (sameDate k)
  | [] => rfl
  | a :: l => by
    show (List.orderedInsert dle a (sortData l)).find? (sameDate k) = _
    rw [find?_orderedInsert]
    by_cases hak : a.date = k
    · rw [if_pos hak, List.find?_cons_of_pos]
      simp [sameDate, hak]
    · rw [if_neg hak, find?_sortData k l, List.find?_cons_of_neg]
      simp [sameDate, hak]

/-- Helper: after replace-or-append, the first record carrying the new
record's date is the new record itself. -/
theorem find?_upsertData (e : Entry) :
    ∀ l : List Entry, (upsertData l e).find? (sameDate e.date) = some e
  | [] => by simp [upsertData, sameDate]
  | d :: rest => by
    by_cases hde : d.date = e.date
    · rw [upsertData, if_pos hde, List.find?_cons_of_pos]
      simp [sameDate]
    · rw [upsertData, if_neg hde, List.find?_cons_of_neg,
        find?_upsertData e rest]
      simp [sameDate, hde]

/-- Helper: when the first record with the new record's date is the new
record itself, replace-or-append changes nothing. -/
theorem upsertData_eq_of_find? (e : Entry) :
    ∀ {l : List Entry}, l.find? (sameDate e.date) = some e →
      upsertData l e = l
  | [], h => by simp at h
  | d :: rest, h => by
    by_cases hde : d.date = e.date
    · have hpd : sameDate e.date d = true := by simp [sameDate, hde]
      rw [List.find?_cons_of_pos _ hpd] at h
      rw [upsertData, if_pos hde]
      injection h with h
      rw [h]
    · have hpd : ¬ sameDate e.date d = true := by simp [sameDate, hde]
      rw [List.find?_cons_of_neg _ hpd] at h
      rw [upsertData, if_neg hde, upsertData_eq_of_find? e h]

/-- Helper: the post-upsert sort is sorted for the date-key order. -/
theorem sortData_sorted (l : List Entry) : List.Sorted dle (sortData l) :=
  List.sorted_insertionSort dle l

/-- Helper: the post-upsert sort permutes the records. -/
theorem sortData_perm (l : List Entry) : List.Perm (sortData l) l :=
  List.perm_insertionSort dle l

/-- Helper: weakly sorted with duplicate-free dates means strictly
increasing. -/
theorem pairwise_dlt_of_sorted_nodup {l : List Entry}
    (hs : List.Sorted dle l) (hnd : (l.map Entry.date).Nodup) :
    l.Pairwise dlt := by
  have hne : l.Pairwise (fun a b : Entry => a.date ≠ b.date) :=
    List.pairwise_map.1 hnd
  have hle : l.Pairwise dle := hs
  exact (pairwiseAnd hle hne).imp fun hab => lt_of_le_of_ne hab.1 hab.2

/-- Helper: evaluation rule for two-decimal rounding via floor bounds. -/
theorem round2_eq (q : ℚ) (m : ℤ) (h1 : (m : ℚ) ≤ q * 100 + 1 / 2)
    (h2 : q * 100 + 1 / 2 < m + 1) : round2 q = (m : ℚ) / 100 := by
  unfold round2
  rw [round_eq, Int.floor_eq_iff.mpr ⟨h1, h2⟩]

/-- Helper: the conversion constant is positive. -/
theorem troyOunceGrams_pos : 0 < troyOunceGrams := by
  norm_num [troyOunceGrams]

/-- Helper: a date all of whose inputs are present and nonzero is emitted
with the derived record. -/
theorem emitAt_emit {kp ip erf : Series} {d : Date} {kv iv ev : ℚ}
    (hkp : sget kp d = some kv) (hip : resolveValue ip d = some iv)
    (herf : resolveValue erf d = some ev)
    (hk : kv ≠ 0) (hi : iv ≠ 0) (he : ev ≠ 0) :
    emitAt kp ip erf d = some (mkRecord d kv iv ev) := by
  have hcond : ¬(kv = 0 ∨ iv = 0 ∨ ev = 0) := by
    push_neg
    exact ⟨hk, hi, he⟩
  unfold emitAt
  rw [hkp, hip, herf]
  dsimp only
  rw [if_neg hcond]

/-- Helper: a date with a missing or zero local price, or an unresolvable
international price or exchange rate, is skipped. -/
theorem emitAt_skip {kp ip erf : Series} {d : Date}
    (h : sget kp d = none ∨ sget kp d = some 0 ∨
      resolveValue ip d = none ∨ resolveValue erf d = none) :
    emitAt kp ip erf d = none := by
  unfold emitAt
  rcases h with h | h | h | h
  · rw [h]
  · rw [h]
    cases resolveValue ip d <;> cases resolveValue erf d <;> rfl
  · rw [h]
    cases sget kp d <;> cases resolveValue erf d <;> rfl
  · rw [h]
    cases sget kp d <;> cases resolveValue ip d <;> rfl

/-- Helper: no record in the backfill output carries a skipped date. -/
theorem build_history_skip {kp ip er : Series} {d : Date}
    (h : sget kp d = none ∨ sget kp d = some 0 ∨
      resolveValue ip d = none ∨
      resolveValue (fill_missing_rates er (sortedDates kp)) d = none) :
    ∀ e ∈ build_history kp ip er, e.date ≠ d := by
  intro e hmem hdd
  unfold build_history at hmem
  obtain ⟨a, _, hfa⟩ := List.mem_filterMap.1 hmem
  have hda : e.date = a := emitAt_date hfa
  rw [hdd] at hda
  rw [← hda] at hfa
  rw [emitAt_skip h] at hfa
  exact Option.noConfusion hfa

/-- Helper: the incremental run returns without output when either required
input is reported missing. -/
theorem updateMain_missing {target : Date} {korean intl rate : Option ℚ}
    {h : History} (hmiss : intl = none ∨ rate = none) :
    updateMain target korean intl rate h = none := by
  unfold updateMain
  rcases hmiss with rfl | rfl
  · rfl
  · cases intl <;> rfl

/-- Helper: on positive supplied inputs the incremental record coincides
with the backfill derivation. -/
theorem updateEntry_eq_mkRecord (t : Date) (kv iv ev : ℚ)
    (hk : 0 < kv) (hi : 0 < iv) (he : 0 < ev) :
    updateEntry t (some kv) iv ev = mkRecord t kv iv ev := by
  have hkrw : 0 < (iv / troyOunceGrams) * ev :=
    mul_pos (div_pos hi troyOunceGrams_pos) he
  unfold updateEntry mkRecord
  dsimp only
  rw [if_neg (ne_of_gt hk), if_pos hkrw]

/-- C1 (invariants): every history produced by the backfill reconciler or
the incremental upsert has its data sequence sorted strictly ascending by
date — for every adjacent pair, `data[i].date < data[i+1].date` — so each
date occurs at most once.  For the upsert this is relative to the persisted
history it mutates, which by the data model already satisfies the
invariant. -/
theorem sorted_unique_invariant :
    (∀ kp ip er : Series, List.Chain' dlt (build_history kp ip er)) ∧
    (∀ (h : History) (e : Entry), List.Chain' dlt h.data →
      List.Chain' dlt (doUpsert h e).data) := by
  constructor
  · intro kp ip er
    exact (build_history_pairwise kp ip er).chain'
  · intro h e hc
    have hp : h.data.Pairwise dlt := List.chain'_iff_pairwise.1 hc
    have hnd : (h.data.map Entry.date).Nodup :=
      List.pairwise_map.2 (hp.imp fun hab => ne_of_lt hab)
    have hnd2 : ((upsertData h.data e).map Entry.date).Nodup :=
      nodup_mapDate_upsertData hnd
    have hnd3 : ((sortData (upsertData h.data e)).map Entry.date).Nodup :=
      ((sortData_perm (upsertData h.data e)).map Entry.date).nodup_iff.mpr hnd2
    exact (pairwise_dlt_of_sorted_nodup
      (sortData_sorted (upsertData h.data e)) hnd3).chain'

/-- Witness for C1 at concrete inputs. -/
theorem sorted_unique_invariant_witness :
    List.Chain' dlt (build_history [] [] []) ∧
    List.Chain' dlt
      (doUpsert ⟨0, [⟨1, 1, 1, 1, 1, 1⟩]⟩ ⟨2, 2, 2, 2, 2, 2⟩).data :=
  ⟨sorted_unique_invariant.1 [] [] [],
   sorted_unique_invariant.2 ⟨0, [⟨1, 1, 1, 1, 1, 1⟩]⟩ ⟨2, 2, 2, 2, 2, 2⟩
     (List.chain'_singleton _)⟩

/-- C5 (algebraic/relational): the incremental upsert is idempotent — for
every history and every record, upserting the same record twice in a row
yields a history (data sequence and `lastUpdated` marker) identical to
upserting it once.  The second upsert finds the record it inserted — the
first record carrying that date, by stability of the sort — replaces it by
itself, and re-sorts an already sorted sequence. -/
theorem upsert_idempotent (h : History) (e : Entry) :
    doUpsert (doUpsert h e) e = doUpsert h e := by
  have hfind : (sortData (upsertData h.data e)).find? (sameDate e.date) =
      some e := by
    rw [find?_sortData]
    exact find?_upsertData e h.data
  have h2 : upsertData (sortData (upsertData h.data e)) e =
      sortData (upsertData h.data e) := upsertData_eq_of_find? e hfind
  have h3 : sortData (sortData (upsertData h.data e)) =
      sortData (upsertData h.data e) := by
    show List.insertionSort dle (sortData (upsertData h.data e)) = _
    exact (sortData_sorted (upsertData h.data e)).insertionSort_eq
  simp only [doUpsert]
  rw [h2, h3]

/-- Witness for C5 at a concrete history and record. -/
theorem upsert_idempotent_witness :
    doUpsert (doUpsert ⟨0, [⟨1, 1, 1, 1, 1, 1⟩]⟩ ⟨2, 2, 2, 2, 2, 2⟩)
        ⟨2, 2, 2, 2, 2, 2⟩ =
      doUpsert ⟨0, [⟨1, 1, 1, 1, 1, 1⟩]⟩ ⟨2, 2, 2, 2, 2, 2⟩ :=
  upsert_idempotent ⟨0, [⟨1, 1, 1, 1, 1, 1⟩]⟩ ⟨2, 2, 2, 2, 2, 2⟩

/-- C6 (error handling): if the incremental path cannot obtain an
international price or an exchange rate, the run is aborted before any
mutation — `updateMain` returns `none`, modelling the early `return` in
which no record is upserted and the history file is left untouched. -/
theorem missing_input_aborts (target : Date) (korean intl rate : Option ℚ)
    (h : History) (hmiss : intl = none ∨ rate = none) :
    updateMain target korean intl rate h = none :=
  updateMain_missing hmiss

/-- Witness for C6 at concrete inputs. -/
theorem missing_input_aborts_witness :
    updateMain 5 (some 100) none (some 1400) ⟨0, []⟩ = none :=
  missing_input_aborts 5 (some 100) none (some 1400) ⟨0, []⟩ (Or.inl rfl)

/-- C2 (functional correctness): every record the engine emits from
positive inputs has `internationalPriceKrw = round2((iv / 31.1035) * ev)`
and `premium = round2(((kv - krw) / krw) * 100)` computed on unrounded
intermediates, with every stored field rounded to two decimals; the
backfill loop emits exactly this record for the resolved inputs, and the
incremental path upserts exactly this record for supplied positive
inputs. -/
theorem derivation_formula_correct :
    (∀ (d : Date) (kv iv ev : ℚ), 0 < kv → 0 < iv → 0 < ev →
      (mkRecord d kv iv ev).koreanPrice = round2 kv ∧
      (mkRecord d kv iv ev).internationalPrice = round2 iv ∧
      (mkRecord d kv iv ev).exchangeRate = round2 ev ∧
      (mkRecord d kv iv ev).internationalPriceKrw =
        round2 (iv / troyOunceGrams * ev) ∧
      (mkRecord d kv iv ev).premium =
        round2 ((kv - iv / troyOunceGrams * ev) /
          (iv / troyOunceGrams * ev) * 100)) ∧
    (∀ (kp ip er : Series) (d : Date) (kv iv ev : ℚ),
      sget kp d = some kv → resolveValue ip d = some iv →
      resolveValue (fill_missing_rates er (sortedDates kp)) d = some ev →
      0 < kv → 0 < iv → 0 < ev →
      emitAt kp ip (fill_missing_rates er (sortedDates kp)) d =
        some (mkRecord d kv iv ev)) ∧
    (∀ (t : Date) (kv iv ev : ℚ) (h : History), 0 < kv → 0 < iv → 0 < ev →
      updateMain t (some kv) (some iv) (some ev) h =
        some (doUpsert h (mkRecord t kv iv ev))) := by
  refine ⟨?_, ?_, ?_⟩
  · intro d kv iv ev _ _ _
    exact ⟨rfl, rfl, rfl, rfl, rfl⟩
  · intro kp ip er d kv iv ev hkp hip herf hk hi he
    exact emitAt_emit hkp hip herf (ne_of_gt hk) (ne_of_gt hi) (ne_of_gt he)
  · intro t kv iv ev h hk hi he
    show some (doUpsert h (updateEntry t (some kv) iv ev)) = _
    rw [updateEntry_eq_mkRecord t kv iv ev hk hi he]

/-- Witness for C2 at concrete positive inputs. -/
theorem derivation_formula_correct_witness :
    updateMain 7 (some 120000) (some 2600) (some 1400) ⟨0, []⟩ =
      some (doUpsert ⟨0, []⟩ (mkRecord 7 120000 2600 1400)) :=
  derivation_formula_correct.2.2 7 120000 2600 1400 ⟨0, []⟩ (by norm_num)
    (by norm_num) (by norm_num)

/-- C3 (functional correctness): the gap-filling resolver of the backfill
path, on a series with positive values: a present target date is returned
directly; otherwise dates `target - 1` through `target - 7` are scanned
nearest first and the first present value is returned; when nothing is
present in the window the resolver reports unavailable (`none`).  In
particular, on the series mapping day 1 to 100 (2024-01-01 as day 1),
resolving day 5 (2024-01-05) returns 100 and resolving day 9 (2024-01-09)
returns `none`. -/
theorem gap_fill_window (s : Series) (d : Date)
    (hpos : ∀ p ∈ s, 0 < p.2) :
    (∀ v, sget s d = some v → resolveValue s d = some v) ∧
    (∀ (i : Int) (v : ℚ), sget s d = none → 1 ≤ i → i ≤ 7 →
      sget s (d - i) = some v →
      (∀ j : Int, 1 ≤ j → j < i → sget s (d - j) = none) →
      resolveValue s d = some v) ∧
    (sget s d = none →
      (∀ i : Int, 1 ≤ i → i ≤ 7 → sget s (d - i) = none) →
      resolveValue s d = none) ∧
    resolveValue [((1 : Date), (100 : ℚ))] 5 = some 100 ∧
    resolveValue [((1 : Date), (100 : ℚ))] 9 = none := by
  refine ⟨?_, ?_, ?_, by decide, by decide⟩
  · intro v hv
    have hvpos : 0 < v := hpos (d, v) (sget_mem hv)
    unfold resolveValue
    rw [hv]
    dsimp only
    rw [if_neg (ne_of_gt hvpos)]
  · intro i v hnone h1 h7 hi hj
    unfold resolveValue
    rw [hnone]
    interval_cases i
    · simp [scanBack, offsets, hi]
    · simp [scanBack, offsets, hj 1 (by norm_num) (by norm_num), hi]
    · simp [scanBack, offsets, hj 1 (by norm_num) (by norm_num),
        hj 2 (by norm_num) (by norm_num), hi]
    · simp [scanBack, offsets, hj 1 (by norm_num) (by norm_num),
        hj 2 (by norm_num) (by norm_num), hj 3 (by norm_num) (by norm_num),
        hi]
    · simp [scanBack, offsets, hj 1 (by norm_num) (by norm_num),
        hj 2 (by norm_num) (by norm_num), hj 3 (by norm_num) (by norm_num),
        hj 4 (by norm_num) (by norm_num), hi]
    · simp [scanBack, offsets, hj 1 (by norm_num) (by norm_num),
        hj 2 (by norm_num) (by norm_num), hj 3 (by norm_num) (by norm_num),
        hj 4 (by norm_num) (by norm_num), hj 5 (by norm_num) (by norm_num),
        hi]
    · simp [scanBack, offsets, hj 1 (by norm_num) (by norm_num),
        hj 2 (by norm_num) (by norm_num), hj 3 (by norm_num) (by norm_num),
        hj 4 (by norm_num) (by norm_num), hj 5 (by norm_num) (by norm_num),
        hj 6 (by norm_num) (by norm_num), hi]
  · intro hnone hall
    unfold resolveValue
    rw [hnone]
    simp [scanBack, offsets, hall 1 (by norm_num) (by norm_num),
      hall 2 (by norm_num) (by norm_num), hall 3 (by norm_num) (by norm_num),
      hall 4 (by norm_num) (by norm_num), hall 5 (by norm_num) (by norm_num),
      hall 6 (by norm_num) (by norm_num), hall 7 (by norm_num) (by norm_num)]

/-- Witness for C3: the two concrete resolutions, obtained from the
theorem applied to the concrete series. -/
theorem gap_fill_window_witness :
    resolveValue [((1 : Date), (100 : ℚ))] 5 = some 100 ∧
    resolveValue [((1 : Date), (100 : ℚ))] 9 = none := by
  have h := gap_fill_window [((1 : Date), (100 : ℚ))] 5
    (by intro p hp; rw [List.mem_singleton.mp hp]; norm_num)
  exact ⟨h.2.2.2.1, h.2.2.2.2⟩

/-- Counterexample for C4: an anchor date whose local price is negative
(hence non-positive) is NOT skipped — with local price `-100` and both
other inputs present, a record for that date is emitted (the source guard
`if not korean_price` only catches `None` and `0`, not negatives). -/
theorem skip_nonpositive_cex :
    (build_history [((5 : Date), (-100 : ℚ))] [(5, 2000)] [(5, 1400)]).map
      Entry.date = [5] := by
  decide

/-- C4 as amended (functional correctness): in the backfill reconciler,
for every anchor date whose local price is zero or missing, or for which
the international price or the exchange rate resolves to unavailable, no
record is emitted for that date — the date is skipped entirely and partial
records never appear. -/
theorem skip_zero_or_missing (kp ip er : Series) (d : Date)
    (hmiss : sget kp d = none ∨ sget kp d = some 0 ∨
      resolveValue ip d = none ∨
      resolveValue (fill_missing_rates er (sortedDates kp)) d = none) :
    ∀ e ∈ build_history kp ip er, e.date ≠ d :=
  build_history_skip hmiss

/-- Witness for C4 at a concrete zero local price. -/
theorem skip_zero_or_missing_witness :
    (5 : Date) ∉
      (build_history [((5 : Date), (0 : ℚ))] [(5, 2000)] [(5, 1400)]).map
        Entry.date := by
  intro hmem
  obtain ⟨e, he, hde⟩ := List.mem_map.1 hmem
  exact skip_zero_or_missing [((5 : Date), (0 : ℚ))] [(5, 2000)] [(5, 1400)]
    5 (Or.inr (Or.inl (by decide))) e he hde

/-- Counterexample for C7: an anchor series of 10 dates (0-6, 30, 31, 32)
where the FX series has its only entry at date 0, so dates 30, 31 and 32
have no FX entry at the date or within 7 days before it — yet the backfill
yields 10 records, not 7, because `fill_missing_rates` first carries the
last known rate forward over all anchor dates with no look-back limit.
The final conjuncts exhibit that the window around each of the 3 dates is
indeed empty in the raw FX series. -/
theorem skip_on_missing_fx_cex :
    (build_history
      [((0 : Date), (100 : ℚ)), (1, 100), (2, 100), (3, 100), (4, 100),
        (5, 100), (6, 100), (30, 100), (31, 100), (32, 100)]
      [((0 : Date), (2000 : ℚ)), (1, 2000), (2, 2000), (3, 2000), (4, 2000),
        (5, 2000), (6, 2000), (30, 2000), (31, 2000), (32, 2000)]
      [((0 : Date), (1400 : ℚ))]).length = 10 ∧
    sget [((0 : Date), (1400 : ℚ))] 30 = none ∧
    scanBack [((0 : Date), (1400 : ℚ))] 30 offsets = none ∧
    sget [((0 : Date), (1400 : ℚ))] 31 = none ∧
    scanBack [((0 : Date), (1400 : ℚ))] 31 offsets = none ∧
    sget [((0 : Date), (1400 : ℚ))] 32 = none ∧
    scanBack [((0 : Date), (1400 : ℚ))] 32 offsets = none := by
  decide

/-- C7 as amended (functional correctness): backfilling an anchor series
of 10 dates where the exchange-rate series has no entry at or within 7
days before 3 of those dates yields exactly 7 records WHEN those 3 dates
precede the first exchange-rate entry (a leading gap); for gaps after the
first FX entry the forward fill (which has no look-back limit) supplies a
carried rate and the dates are not skipped.  Here dates 0, 1, 2 precede
the sole FX entry at date 10 and are skipped; the remaining 7 anchor
dates survive. -/
theorem skip_on_missing_fx_leading :
    (build_history
      [((0 : Date), (100 : ℚ)), (1, 100), (2, 100), (10, 100), (11, 100),
        (12, 100), (13, 100), (14, 100), (15, 100), (16, 100)]
      [((0 : Date), (2000 : ℚ)), (1, 2000), (2, 2000), (10, 2000), (11, 2000),
        (12, 2000), (13, 2000), (14, 2000), (15, 2000), (16, 2000)]
      [((10 : Date), (1400 : ℚ))]).map Entry.date =
        [10, 11, 12, 13, 14, 15, 16] ∧
    (build_history
      [((0 : Date), (100 : ℚ)), (1, 100), (2, 100), (10, 100), (11, 100),
        (12, 100), (13, 100), (14, 100), (15, 100), (16, 100)]
      [((0 : Date), (2000 : ℚ)), (1, 2000), (2, 2000), (10, 2000), (11, 2000),
        (12, 2000), (13, 2000), (14, 2000), (15, 2000), (16, 2000)]
      [((10 : Date), (1400 : ℚ))]).length = 7 ∧
    sget [((10 : Date), (1400 : ℚ))] 0 = none ∧
    scanBack [((10 : Date), (1400 : ℚ))] 0 offsets = none ∧
    sget [((10 : Date), (1400 : ℚ))] 1 = none ∧
    scanBack [((10 : Date), (1400 : ℚ))] 1 offsets = none ∧
    sget [((10 : Date), (1400 : ℚ))] 2 = none ∧
    scanBack [((10 : Date), (1400 : ℚ))] 2 offsets = none := by
  decide

/-- Counterexample for C8: the international-price adapter maps a
successful response without a price field to `0` (not `None`), and that
`0` passes the engine's `is None` check, so the incremental path emits a
record whose price fields are silently zero-filled although the
international price was genuinely missing. -/
theorem zero_substitution_cex :
    get_international_gold_price (some none) = some 0 ∧
    updateMain 5 none (get_international_gold_price (some none)) (some 1400)
        ⟨0, []⟩ =
      some ⟨5, [⟨5, 0, 0, 0, 1400, 0⟩]⟩ := by
  refine ⟨rfl, ?_⟩
  have hkv : (0 : ℚ) / troyOunceGrams * 1400 * (103 / 100) = 0 := by
    norm_num
  have hkrw : (0 : ℚ) / troyOunceGrams * 1400 = 0 := by
    norm_num
  have h0 : round2 0 = 0 := by
    unfold round2
    norm_num
  have h1400 : round2 1400 = 1400 := by
    rw [round2_eq 1400 140000 (by norm_num) (by norm_num)]
    norm_num
  have hent : updateEntry 5 none 0 1400 = (⟨5, 0, 0, 0, 1400, 0⟩ : Entry) := by
    unfold updateEntry
    dsimp only
    rw [hkv, hkrw]
    rw [if_neg (lt_irrefl (0 : ℚ))]
    rw [h0, h1400]
  show some (doUpsert ⟨0, []⟩ (updateEntry 5 none 0 1400)) = _
  rw [hent]
  rfl

/-- C8 as amended (safety): provided a missing value reaches the engine as
an absent value, no record is emitted with `0` substituted for it — the
incremental run aborts when the international price or the exchange rate
is `None`, and the backfill skips any anchor date whose local price is
missing or whose international price or exchange rate resolves to
unavailable; however (see the counterexample) the international-price
adapter itself converts a response lacking the price field into a `0`
which the `None` check does not catch. -/
theorem no_zero_substitution :
    (∀ (target : Date) (korean intl rate : Option ℚ) (h : History),
      intl = none ∨ rate = none →
      updateMain target korean intl rate h = none) ∧
    (∀ (kp ip er : Series) (d : Date),
      sget kp d = none ∨ resolveValue ip d = none ∨
        resolveValue (fill_missing_rates er (sortedDates kp)) d = none →
      ∀ e ∈ build_history kp ip er, e.date ≠ d) := by
  constructor
  · intro _ _ _ _ _ hmiss
    exact updateMain_missing hmiss
  · intro kp ip er d hmiss
    refine build_history_skip ?_
    rcases hmiss with h | h | h
    · exact Or.inl h
    · exact Or.inr (Or.inr (Or.inl h))
    · exact Or.inr (Or.inr (Or.inr h))

/-- Witness for C8 at concrete inputs. -/
theorem no_zero_substitution_witness :
    updateMain 5 (some 100) none (some 1400) ⟨0, []⟩ = none ∧
    (5 : Date) ∉
      (build_history [] [((5 : Date), (2000 : ℚ))] [(5, 1400)]).map
        Entry.date := by
  constructor
  · exact no_zero_substitution.1 5 (some 100) none (some 1400) ⟨0, []⟩
      (Or.inl rfl)
  · intro hmem
    obtain ⟨e, he, hde⟩ := List.mem_map.1 hmem
    exact no_zero_substitution.2 [] [((5 : Date), (2000 : ℚ))] [(5, 1400)] 5
      (Or.inl rfl) e he hde

/-- Counterexample for C9: the derivation applied to
`(localPrice, internationalPrice, exchangeRate) = (120000, 2600, 1400)`
does NOT store `internationalPriceConverted = 117025.40`; the exact value
of `(2600 / 31.1035) * 1400` is about `117028.63`. -/
theorem derivation_example_cex :
    ¬ (mkRecord 0 120000 2600 1400).internationalPriceKrw =
      11702540 / 100 := by
  have h : (mkRecord 0 120000 2600 1400).internationalPriceKrw =
      ((11702863 : ℤ) : ℚ) / 100 := by
    show round2 (2600 / troyOunceGrams * 1400) = _
    exact round2_eq _ 11702863 (by norm_num [troyOunceGrams])
      (by norm_num [troyOunceGrams])
  rw [h]
  norm_num

/-- C9 as amended (numerical): the derivation applied to
`localPrice = 120000`, `internationalPrice = 2600`, `exchangeRate = 1400`
yields `internationalPriceConverted = 117028.63` (not 117025.40) and
`premiumPercent = 2.54` at the 2-decimal stored precision. -/
theorem derivation_example_values :
    (mkRecord 0 120000 2600 1400).internationalPriceKrw = 11702863 / 100 ∧
    (mkRecord 0 120000 2600 1400).premium = 254 / 100 := by
  constructor
  · show round2 (2600 / troyOunceGrams * 1400) = _
    rw [round2_eq _ 11702863 (by norm_num [troyOunceGrams])
      (by norm_num [troyOunceGrams])]
    norm_num
  · show round2 ((120000 - 2600 / troyOunceGrams * 1400) /
      (2600 / troyOunceGrams * 1400) * 100) = _
    rw [round2_eq _ 254 (by norm_num [troyOunceGrams])
      (by norm_num [troyOunceGrams])]
    norm_num

/-- C10 (numerical, implicit): in the incremental path, with an
international price and an exchange rate available but the local price
missing (`None`) or zero, the run does not abort: it upserts the record
built from the estimated Korean price — the unrounded
`internationalPriceKrw` times 1.03 — and in exact arithmetic the premium
of that estimate is exactly 3, so the stored premium is 3. -/
theorem estimated_premium_three (t : Date) (korean : Option ℚ) (iv ev : ℚ)
    (h : History) (hk : korean = none ∨ korean = some 0)
    (hi : 0 < iv) (he : 0 < ev) :
    updateMain t korean (some iv) (some ev) h =
      some (doUpsert h (updateEntry t korean iv ev)) ∧
    (updateEntry t korean iv ev).koreanPrice =
      round2 (iv / troyOunceGrams * ev * (103 / 100)) ∧
    (iv / troyOunceGrams * ev * (103 / 100) - iv / troyOunceGrams * ev) /
        (iv / troyOunceGrams * ev) * 100 = 3 ∧
    (updateEntry t korean iv ev).premium = 3 := by
  have hkrw : 0 < iv / troyOunceGrams * ev :=
    mul_pos (div_pos hi troyOunceGrams_pos) he
  have hne : iv / troyOunceGrams * ev ≠ 0 := ne_of_gt hkrw
  have hc : troyOunceGrams ≠ 0 := ne_of_gt troyOunceGrams_pos
  have hker : (iv / troyOunceGrams * ev * (103 / 100) -
      iv / troyOunceGrams * ev) / (iv / troyOunceGrams * ev) * 100 = 3 := by
    field_simp
    ring
  have h3 : round2 (3 : ℚ) = 3 := by
    rw [round2_eq 3 300 (by norm_num) (by norm_num)]
    norm_num
  rcases hk with rfl | rfl
  · refine ⟨rfl, rfl, hker, ?_⟩
    show round2 (if 0 < iv / troyOunceGrams * ev then
        (iv / troyOunceGrams * ev * (103 / 100) - iv / troyOunceGrams * ev) /
          (iv / troyOunceGrams * ev) * 100 else 0) = 3
    rw [if_pos hkrw, hker]
    exact h3
  · refine ⟨rfl, ?_, hker, ?_⟩
    · show round2 (if (0 : ℚ) = 0 then
          iv / troyOunceGrams * ev * (103 / 100) else 0) = _
      rw [if_pos rfl]
    · show round2 (if 0 < iv / troyOunceGrams * ev then
          ((if (0 : ℚ) = 0 then iv / troyOunceGrams * ev * (103 / 100)
            else 0) - iv / troyOunceGrams * ev) /
            (iv / troyOunceGrams * ev) * 100 else 0) = 3
      rw [if_pos rfl, if_pos hkrw, hker]
      exact h3

/-- Witness for C10 at concrete inputs. -/
theorem estimated_premium_three_witness :
    updateMain 9 none (some 2600) (some 1400) ⟨0, []⟩ =
      some (doUpsert ⟨0, []⟩ (updateEntry 9 none 2600 1400)) ∧
    (updateEntry 9 none 2600 1400).premium = 3 := by
  have h := estimated_premium_three 9 none 2600 1400 ⟨0, []⟩ (Or.inl rfl)
    (by norm_num) (by norm_num)
  exact ⟨h.1, h.2.2.2⟩

end GoldData
